import Mathlib

/-!
# Verification of the livebucket reactive key-value store

A shallow embedding of the server core (`src/server.rs`), the shared wire
types (`src/shared.rs`) and the client-side correlator (`src/client.rs`) of
the livebucket repository, with theorems settling the frozen claims about
it.

Conventions of the embedding:
* JSON values (`serde_json::Value`) are the inductive `Json`.
* The embedded KV store (sled) is modelled by its contract (spec §3
  "Store"): an association list of raw keys to raw values kept strictly
  sorted in ascending key-byte order, with `scanPrefix` the prefix scan and
  `dbInsert` the durable blind-overwrite insert.  A byte string is
  modelled as a `List Char`; for the decoded texts the claims quantify
  over, bytewise lexicographic order and bytewise prefixes of the UTF-8
  encoding agree with per-character order and per-character prefixes, which
  is what this representation provides.  A stored key or value that fails
  UTF-8 decoding or JSON parsing is a `RawKey.bad` / `RawVal.bad`
  alternative, mirroring that decoding is partial.
* The single-serializer event loop of `server_event_handler` is the state
  machine `step` over `ServerState`; the multi-producer single-consumer
  FIFO queue with self-enqueues is the `run` function, which appends the
  events a step self-enqueues at the tail of the pending queue.  Whether a
  websocket send to a client succeeds is external nondeterminism and is
  supplied by a boolean oracle, indexed by the processing step.
-/

namespace LiveBucket

/-- `serde_json::Value`: an arbitrary JSON value. -/
inductive Json where
  | null
  | bool (b : Bool)
  | num (n : Int)
  | str (s : String)
  | arr (elems : List Json)
  | obj (fields : List (String × Json))

mutual

def Json.jdecEq : (a b : Json) → Decidable (a = b)
  | .null, .null => isTrue rfl
  | .bool x, .bool y =>
    match decEq x y with
    | isTrue h => isTrue (by rw [h])
    | isFalse h => isFalse (by intro hc; cases hc; exact h rfl)
  | .num x, .num y =>
    match decEq x y with
    | isTrue h => isTrue (by rw [h])
    | isFalse h => isFalse (by intro hc; cases hc; exact h rfl)
  | .str x, .str y =>
    match decEq x y with
    | isTrue h => isTrue (by rw [h])
    | isFalse h => isFalse (by intro hc; cases hc; exact h rfl)
  | .arr xs, .arr ys =>
    match Json.jdecEqList xs ys with
    | isTrue h => isTrue (by rw [h])
    | isFalse h => isFalse (by intro hc; cases hc; exact h rfl)
  | .obj xs, .obj ys =>
    match Json.jdecEqFields xs ys with
    | isTrue h => isTrue (by rw [h])
    | isFalse h => isFalse (by intro hc; cases hc; exact h rfl)
  | .null, .bool _ => isFalse (by intro hc; cases hc)
  | .null, .num _ => isFalse (by intro hc; cases hc)
  | .null, .str _ => isFalse (by intro hc; cases hc)
  | .null, .arr _ => isFalse (by intro hc; cases hc)
  | .null, .obj _ => isFalse (by intro hc; cases hc)
  | .bool _, .null => isFalse (by intro hc; cases hc)
  | .bool _, .num _ => isFalse (by intro hc; cases hc)
  | .bool _, .str _ => isFalse (by intro hc; cases hc)
  | .bool _, .arr _ => isFalse (by intro hc; cases hc)
  | .bool _, .obj _ => isFalse (by intro hc; cases hc)
  | .num _, .null => isFalse (by intro hc; cases hc)
  | .num _, .bool _ => isFalse (by intro hc; cases hc)
  | .num _, .str _ => isFalse (by intro hc; cases hc)
  | .num _, .arr _ => isFalse (by intro hc; cases hc)
  | .num _, .obj _ => isFalse (by intro hc; cases hc)
  | .str _, .null => isFalse (by intro hc; cases hc)
  | .str _, .bool _ => isFalse (by intro hc; cases hc)
  | .str _, .num _ => isFalse (by intro hc; cases hc)
  | .str _, .arr _ => isFalse (by intro hc; cases hc)
  | .str _, .obj _ => isFalse (by intro hc; cases hc)
  | .arr _, .null => isFalse (by intro hc; cases hc)
  | .arr _, .bool _ => isFalse (by intro hc; cases hc)
  | .arr _, .num _ => isFalse (by intro hc; cases hc)
  | .arr _, .str _ => isFalse (by intro hc; cases hc)
  | .arr _, .obj _ => isFalse (by intro hc; cases hc)
  | .obj _, .null => isFalse (by intro hc; cases hc)
  | .obj _, .bool _ => isFalse (by intro hc; cases hc)
  | .obj _, .num _ => isFalse (by intro hc; cases hc)
  | .obj _, .str _ => isFalse (by intro hc; cases hc)
  | .obj _, .arr _ => isFalse (by intro hc; cases hc)

def Json.jdecEqList : (a b : List Json) → Decidable (a = b)
  | [], [] => isTrue rfl
  | [], _ :: _ => isFalse (by intro hc; cases hc)
  | _ :: _, [] => isFalse (by intro hc; cases hc)
  | x :: xs, y :: ys =>
    match Json.jdecEq x y, Json.jdecEqList xs ys with
    | isTrue h1, isTrue h2 => isTrue (by rw [h1, h2])
    | isFalse h1, _ => isFalse (by intro hc; cases hc; exact h1 rfl)
    | _, isFalse h2 => isFalse (by intro hc; cases hc; exact h2 rfl)

def Json.jdecEqFields : (a b : List (String × Json)) → Decidable (a = b)
  | [], [] => isTrue rfl
  | [], _ :: _ => isFalse (by intro hc; cases hc)
  | _ :: _, [] => isFalse (by intro hc; cases hc)
  | (s, x) :: xs, (t, y) :: ys =>
    match decEq s t, Json.jdecEq x y, Json.jdecEqFields xs ys with
    | isTrue h0, isTrue h1, isTrue h2 => isTrue (by rw [h0, h1, h2])
    | isFalse h0, _, _ => isFalse (by intro hc; cases hc; exact h0 rfl)
    | _, isFalse h1, _ => isFalse (by intro hc; cases hc; exact h1 rfl)
    | _, _, isFalse h2 => isFalse (by intro hc; cases hc; exact h2 rfl)

end

instance : DecidableEq Json := Json.jdecEq

/-- `GetFn` of `src/shared.rs`: the selector of a result set. -/
inductive GetFn where
  | Procedure (name : String) (arg : Json)
  | Prefix (p : String)
  deriving DecidableEq

/-- `QueryType` of `src/shared.rs`. -/
inductive QueryType where
  | GET (search : GetFn)
  | WATCH (search : GetFn)
  | UNWATCH
  | INSERT (key : String) (value : Json)
  deriving DecidableEq

/-- `Query` of `src/shared.rs`: the inbound wire envelope. -/
structure Query where
  query_type : QueryType
  query_id : String
  deriving DecidableEq

/-- `KVPair` of `src/shared.rs`. -/
structure KVPair where
  key : String
  value : Json
  deriving DecidableEq

/-- `Response` of `src/shared.rs`: the outbound wire envelope. -/
structure Response where
  query_id : String
  query_res : List KVPair
  deriving DecidableEq

/-- A byte string of the embedded KV store, one `Char` per byte position
(see the module comment: per-character order and prefixes of the decoded
text coincide with bytewise order and prefixes of its UTF-8 encoding). -/
abbrev Bytes := List Char

/-- `s.starts_with(pre)` of Rust: `s` starts with `pre`. -/
def strStartsWith (s pre : String) : Bool :=
  pre.data.isPrefixOf s.data

/-- The bytes of a `&str` handed to the store. -/
def strBytes (s : String) : Bytes := s.data

/-- A raw key as stored by the KV engine: either the encoding of a valid
UTF-8 string, or a byte string on which `String::from_utf8` fails. -/
inductive RawKey where
  | utf8 (s : String)
  | bad (b : Bytes)
  deriving DecidableEq

/-- The underlying bytes of a raw key. -/
def RawKey.bytes : RawKey → Bytes
  | utf8 s => strBytes s
  | bad b => b

/-- `String::from_utf8` on a raw key: partial decoding. -/
def RawKey.decode : RawKey → Option String
  | utf8 s => some s
  | bad _ => none

/-- A raw value as stored by the KV engine: either the encoding of a JSON
text, or bytes on which UTF-8 decoding or `serde_json::from_str` fails. -/
inductive RawVal where
  | json (j : Json)
  | bad (b : Bytes)
  deriving DecidableEq

/-- UTF-8 decoding followed by JSON parsing of a raw value. -/
def RawVal.decode : RawVal → Option Json
  | json j => some j
  | bad _ => none

/-- Strict bytewise lexicographic order on byte strings. -/
def bytesLt : Bytes → Bytes → Bool
  | [], [] => false
  | [], _ :: _ => true
  | _ :: _, [] => false
  | x :: xs, y :: ys => if x < y then true else if x = y then bytesLt xs ys else false

/-- The store contents: an association list from raw keys to raw values. -/
abbrev Db := List (RawKey × RawVal)

/-- The store contract (spec §3): the key sequence is strictly ascending in
key-byte order (in particular keys are distinct). -/
def dbSorted (db : Db) : Prop :=
  db.Pairwise fun a b => bytesLt a.1.bytes b.1.bytes = true

/-- `sled::Db::scan_prefix`, per the store contract: all pairs whose key
starts with the given bytes, in store order. -/
def scanPrefix (p : Bytes) (db : Db) : Db :=
  db.filter fun e => p.isPrefixOf e.1.bytes

/-- `sled::Db::insert`, per the store contract: blind overwrite keeping the
ascending key order. -/
def dbInsert (k : RawKey) (v : RawVal) : Db → Db
  | [] => [(k, v)]
  | e :: rest =>
    if bytesLt k.bytes e.1.bytes then (k, v) :: e :: rest
    else if k.bytes = e.1.bytes then (k, v) :: rest
    else e :: dbInsert k v rest

/-- One row of `get_query` (`src/server.rs:141-158`): the key must decode
as UTF-8 and the value must decode as UTF-8 JSON text, else the row is
skipped. -/
def decodeEntry (e : RawKey × RawVal) : Option KVPair :=
  match e.1.decode, e.2.decode with
  | some k, some v => some ⟨k, v⟩
  | _, _ => none

/-- `get_query` of `src/server.rs:138-162`: scan the prefix, skip rows
whose key is not valid UTF-8 or whose value is not valid JSON. -/
def get_query (search : String) (db : Db) : List KVPair :=
  (scanPrefix (strBytes search) db).filterMap decodeEntry

/-- A registered procedure: `fn(DBRead, Value) -> Vec<KVPair>`, with the
read-only `DBRead` handle modelled as the database contents. -/
abbrev ProcFn := Db → Json → List KVPair

/-- The procedure registry handed to `run` (`src/server.rs:20`). -/
abbrev Procs := List (String × ProcFn)

/-- `functions.iter().find(|(f, _)| f == &fn_name)` (`src/server.rs:63`). -/
def findProc (procs : Procs) (name : String) : Option ProcFn :=
  (procs.find? fun f => f.1 == name).map (·.2)

/-- Selector evaluation inside the GET arm (`src/server.rs:61-71`): `none`
when the procedure name is not registered. -/
def evalGetFn (procs : Procs) (db : Db) : GetFn → Option (List KVPair)
  | .Procedure name arg => (findProc procs name).map fun f => f db arg
  | .Prefix p => some (get_query p db)

/-- `ClientID` (`src/server.rs:164`): a server-assigned connection id. -/
abbrev ClientID := Nat

/-- `ServerEvent` of `src/server.rs:165-169`.  The writer handle carried by
`ClientConnected` only matters through the client table's membership, so it
is not part of the event. -/
inductive ServerEvent where
  | ClientConnected (c : ClientID)
  | ClientDisconnected (c : ClientID)
  | ClientQuery (c : ClientID) (q : Query)
  deriving DecidableEq

/-- The state owned by `server_event_handler`: the client table (as the set
of connected ids), the watch table in insertion order, and the store. -/
structure ServerState where
  clients : List ClientID
  watches : List (ClientID × String × GetFn)
  db : Db
  deriving DecidableEq

/-- `clients.insert(client_id, sx)` restricted to key membership. -/
def insertClient (c : ClientID) (l : List ClientID) : List ClientID :=
  if l.contains c then l else c :: l

/-- The self-enqueued re-evaluation event
`ServerEvent::Query(client_id, Query { GET(search), query_id })`. -/
def mkGet (c : ClientID) (q : String) (sel : GetFn) : ServerEvent :=
  .ClientQuery c ⟨.GET sel, q⟩

/-- The insert fan-out loop (`src/server.rs:113-130`): a `Procedure` watch
is skipped unless its name starts with the inserted key; every other watch
gets a re-evaluation GET self-enqueued, in watch-table order. -/
def insertFanout (watches : List (ClientID × String × GetFn)) (key : String) :
    List ServerEvent :=
  watches.filterMap fun w =>
    match w.2.2 with
    | GetFn.Procedure name _ =>
      if strStartsWith name key then some (mkGet w.1 w.2.1 w.2.2) else none
    | GetFn.Prefix _ => some (mkGet w.1 w.2.1 w.2.2)

/-- What one handled event produces: the next state, the self-enqueued
events (in send order) and the responses written to client writers. -/
structure StepOut where
  state : ServerState
  enq : List ServerEvent
  out : List (ClientID × Response)
  deriving DecidableEq

/-- One iteration of the event loop of `server_event_handler`
(`src/server.rs:50-135`).  `sendOk` is the outcome of the websocket send in
the GET arm (`src/server.rs:86-88`): on failure the client is removed from
the client table and no response is delivered. -/
def step (procs : Procs) (sendOk : Bool) (s : ServerState) : ServerEvent → StepOut
  | .ClientConnected c => ⟨{ s with clients := insertClient c s.clients }, [], []⟩
  | .ClientDisconnected c =>
    ⟨{ s with clients := s.clients.filter fun x => x != c,
              watches := s.watches.filter fun w => w.1 != c }, [], []⟩
  | .ClientQuery c q =>
    match q.query_type with
    | .GET search =>
      match evalGetFn procs s.db search with
      | none => ⟨s, [], []⟩
      | some res =>
        if c ∈ s.clients then
          if sendOk then ⟨s, [], [(c, ⟨q.query_id, res⟩)]⟩
          else ⟨{ s with clients := s.clients.filter fun x => x != c }, [], []⟩
        else ⟨s, [], []⟩
    | .WATCH search =>
      ⟨{ s with watches := s.watches ++ [(c, q.query_id, search)] },
        [mkGet c q.query_id search], []⟩
    | .UNWATCH =>
      ⟨{ s with watches := s.watches.filter fun w => w.2.1 != q.query_id }, [], []⟩
    | .INSERT key value =>
      ⟨{ s with db := dbInsert (RawKey.utf8 key) (RawVal.json value) s.db },
        insertFanout s.watches key, []⟩

/-- One processed event of the loop together with the responses its
handling wrote out. -/
structure TraceEntry where
  event : ServerEvent
  out : List (ClientID × Response)
  deriving DecidableEq

/-- The event loop over the FIFO queue: the head event is handled and the
events it self-enqueues are appended at the tail, after everything already
queued (`event_sx.send` into the same channel `rx` consumes).  `fuel`
bounds the number of handled events, `i` indexes the send oracle. -/
def run (procs : Procs) (oracle : Nat → Bool) :
    Nat → Nat → ServerState → List ServerEvent → List TraceEntry
  | 0, _, _, _ => []
  | _ + 1, _, _, [] => []
  | fuel + 1, i, s, e :: rest =>
    let o := step procs (oracle i) s e
    ⟨e, o.out⟩ :: run procs oracle fuel (i + 1) o.state (rest ++ o.enq)

/-- The `query_id` an event carries, when it is a client query. -/
def eventQid : ServerEvent → Option String
  | .ClientQuery _ q => some q.query_id
  | _ => none

/-- The WATCH event of client `c` under `query_id` `q`. -/
def watchEv (c : ClientID) (q : String) (sel : GetFn) : ServerEvent :=
  .ClientQuery c ⟨.WATCH sel, q⟩

/-- The state, the accumulated self-enqueued events, and the trace of
handling a fixed list of events back to back (the queue evolution of `run`
while it works through events that were all queued before any of the
events they enqueue). -/
def procList (procs : Procs) (oracle : Nat → Bool) :
    List ServerEvent → Nat → ServerState → ServerState × List ServerEvent × List TraceEntry
  | [], _, s => (s, [], [])
  | e :: es, i, s =>
    let o := step procs (oracle i) s e
    let r := procList procs oracle es (i + 1) o.state
    (r.1, o.enq ++ r.2.1, ⟨e, o.out⟩ :: r.2.2)

/-- Invariant I1 of the spec, read literally: a watch-table entry with
`client_id` `c` exists iff `c` is a key of the client table. -/
def i1 (s : ServerState) : Prop :=
  ∀ c : ClientID, (∃ w ∈ s.watches, w.1 = c) ↔ c ∈ s.clients

/-- The forward direction of invariant I1: every watch-table entry belongs
to a client present in the client table. -/
def i1fwd (s : ServerState) : Prop :=
  ∀ w ∈ s.watches, w.1 ∈ s.clients

/-!
## The client-side correlator (`src/client.rs`)

The callback map `query_id → (persistent, inbox sender)` is an association
list; an inbox is identified by a number (each `get`/`watch` call allocates
a fresh channel).  A delivery is recorded as `(query_id, inbox, payload)`;
whether the channel send succeeds (the receiver may be gone) is an
external boolean, supplied per response.
-/

/-- One entry of the callback map: the `persist` flag (`true` for `watch`,
`false` for `get`) and the inbox channel. -/
structure CBEntry where
  persist : Bool
  inbox : Nat
  deriving DecidableEq

/-- The callback map `CBMap` of `src/client.rs:33`. -/
abbrev CBMap := List (String × CBEntry)

/-- `HashMap` lookup by `query_id`. -/
def cbLookup (m : CBMap) (qid : String) : Option CBEntry :=
  (m.find? fun e => e.1 == qid).map (·.2)

/-- `HashMap` removal of a `query_id`. -/
def cbRemove (m : CBMap) (qid : String) : CBMap :=
  m.filter fun e => e.1 != qid

/-- A delivery into an inbox: the response's `query_id`, the inbox, and the
result set handed over. -/
abbrev Delivery := String × Nat × List KVPair

/-- The dispatch of one inbound `Response` frame by `run_socket`
(`src/client.rs:145-165`): look the `query_id` up; if absent, nothing
happens; otherwise attempt delivery (`ok` is the channel-send outcome, on
failure the entry is treated as non-persistent), and remove the entry
unless it stays persistent. -/
def dispatch (m : CBMap) (ok : Bool) (r : Response) : CBMap × Option Delivery :=
  match cbLookup m r.query_id with
  | none => (m, none)
  | some entry =>
    (if entry.persist && ok then m else cbRemove m r.query_id,
      if ok then some (r.query_id, entry.inbox, r.query_res) else none)

/-- Dispatch of a whole sequence of inbound responses, each with its
channel-send outcome, collecting the deliveries in order. -/
def dispatchAll (m : CBMap) : List (Bool × Response) → CBMap × List Delivery
  | [] => (m, [])
  | (ok, r) :: rs =>
    let d := dispatch m ok r
    let res := dispatchAll d.1 rs
    (res.1, d.2.toList ++ res.2)

/-- `Drop for RespWaiter` (`src/client.rs:205-219`): remove the handle's
`query_id` from the callback map and send exactly one UNWATCH frame (a
`Query` envelope with `QueryType::UNWATCH`) carrying that `query_id`. -/
def dropHandle (m : CBMap) (qid : String) : CBMap × Query :=
  (cbRemove m qid, ⟨QueryType.UNWATCH, qid⟩)

/-!
## Helper lemmas about one step of the event loop
-/

theorem mkGet_inj {c c' : ClientID} {q q' : String} {sel sel' : GetFn} :
    mkGet c q sel = mkGet c' q' sel' ↔ c = c' ∧ q = q' ∧ sel = sel' := by
  simp only [mkGet, ServerEvent.ClientQuery.injEq, Query.mk.injEq,
    QueryType.GET.injEq]
  tauto

theorem mem_insertFanout_prefix {ws : List (ClientID × String × GetFn)}
    {key : String} {c : ClientID} {q p : String} :
    mkGet c q (GetFn.Prefix p) ∈ insertFanout ws key ↔ (c, q, GetFn.Prefix p) ∈ ws := by
  simp only [insertFanout, List.mem_filterMap]
  constructor
  · rintro ⟨⟨wc, wq, wsel⟩, hmem, hf⟩
    cases wsel with
    | Procedure name arg =>
      by_cases hst : strStartsWith name key = true
      · simp only [hst, if_pos] at hf
        simp only [Option.some.injEq] at hf
        rw [mkGet_inj] at hf
        exact absurd hf.2.2 (by simp)
      · simp only [hst] at hf
        simp at hf
    | Prefix wp =>
      simp only [Option.some.injEq] at hf
      rw [mkGet_inj] at hf
      obtain ⟨h1, h2, h3⟩ := hf
      subst h1; subst h2
      cases h3
      exact hmem
  · intro h
    exact ⟨(c, q, GetFn.Prefix p), h, rfl⟩

theorem mem_insertFanout_procedure {ws : List (ClientID × String × GetFn)}
    {key : String} {c : ClientID} {q name : String} {arg : Json} :
    mkGet c q (GetFn.Procedure name arg) ∈ insertFanout ws key ↔
      (c, q, GetFn.Procedure name arg) ∈ ws ∧ strStartsWith name key = true := by
  simp only [insertFanout, List.mem_filterMap]
  constructor
  · rintro ⟨⟨wc, wq, wsel⟩, hmem, hf⟩
    cases wsel with
    | Procedure wname warg =>
      by_cases hst : strStartsWith wname key = true
      · simp only [hst, if_pos] at hf
        simp only [Option.some.injEq] at hf
        rw [mkGet_inj] at hf
        obtain ⟨h1, h2, h3⟩ := hf
        subst h1; subst h2
        cases h3
        exact ⟨hmem, hst⟩
      · simp only [hst] at hf
        simp at hf
    | Prefix wp =>
      simp only [Option.some.injEq] at hf
      rw [mkGet_inj] at hf
      exact absurd hf.2.2 (by simp)
  · rintro ⟨h, hst⟩
    exact ⟨(c, q, GetFn.Procedure name arg), h, by simp [hst]⟩

/-- Every response a step writes goes to the client of the event being
handled, under that event's `query_id`, and only a GET produces one. -/
theorem step_out_shape (procs : Procs) (ok : Bool) (s : ServerState)
    (e : ServerEvent) :
    ∀ r ∈ (step procs ok s e).out, ∃ sel, e = .ClientQuery r.1 ⟨.GET sel, r.2.query_id⟩ := by
  intro r hr
  cases e with
  | ClientConnected c => simp [step] at hr
  | ClientDisconnected c => simp [step] at hr
  | ClientQuery c q =>
    cases hq : q.query_type with
    | GET search =>
      simp only [step, hq] at hr
      cases hev : evalGetFn procs s.db search with
      | none => simp [hev] at hr
      | some res =>
        simp only [hev] at hr
        by_cases hc : c ∈ s.clients
        · simp only [hc, if_pos] at hr
          cases ok with
          | false => simp at hr
          | true =>
            simp only [if_pos] at hr
            simp only [List.mem_singleton] at hr
            subst hr
            exact ⟨search, by rw [← hq]⟩
        · simp [hc] at hr
    | WATCH search => simp [step, hq] at hr
    | UNWATCH => simp [step, hq] at hr
    | INSERT key value => simp [step, hq] at hr

/-- Every event a step self-enqueues is a re-evaluation GET: either for a
watch already in the table, or the initial GET of the WATCH being
handled. -/
theorem step_enq_shape (procs : Procs) (ok : Bool) (s : ServerState)
    (e : ServerEvent) :
    ∀ e' ∈ (step procs ok s e).enq,
      (∃ w ∈ s.watches, e' = mkGet w.1 w.2.1 w.2.2) ∨
        (∃ c q sel, e = .ClientQuery c ⟨.WATCH sel, q⟩ ∧ e' = mkGet c q sel) := by
  intro e' he
  cases e with
  | ClientConnected c => simp [step] at he
  | ClientDisconnected c => simp [step] at he
  | ClientQuery c q =>
    cases hq : q.query_type with
    | GET search =>
      simp only [step, hq] at he
      cases hev : evalGetFn procs s.db search with
      | none => simp [hev] at he
      | some res =>
        simp only [hev] at he
        by_cases hc : c ∈ s.clients
        · simp only [hc, if_pos] at he
          cases ok <;> simp at he
        · simp [hc] at he
    | WATCH search =>
      simp only [step, hq, List.mem_singleton] at he
      exact Or.inr ⟨c, q.query_id, search, by rw [← hq], he⟩
    | UNWATCH => simp [step, hq] at he
    | INSERT key value =>
      simp only [step, hq, insertFanout, List.mem_filterMap] at he
      obtain ⟨w, hw, hf⟩ := he
      left
      refine ⟨w, hw, ?_⟩
      rcases w with ⟨wc, wq, wsel⟩
      cases wsel with
      | Procedure name arg =>
        by_cases hst : strStartsWith name key = true
        · simp only [hst, if_pos, Option.some.injEq] at hf
          exact hf.symm
        · simp [hst] at hf
      | Prefix wp =>
        simp only [Option.some.injEq] at hf
        exact hf.symm

/-- A watch entry after a step was either already in the table, or was
added by handling the WATCH event with its `query_id`. -/
theorem step_watches_shape (procs : Procs) (ok : Bool) (s : ServerState)
    (e : ServerEvent) :
    ∀ w ∈ (step procs ok s e).state.watches,
      w ∈ s.watches ∨ ∃ c sel, e = .ClientQuery c ⟨.WATCH sel, w.2.1⟩ ∧ w = (c, w.2.1, sel) := by
  intro w hw
  cases e with
  | ClientConnected c => exact Or.inl hw
  | ClientDisconnected c =>
    simp only [step, List.mem_filter] at hw
    exact Or.inl hw.1
  | ClientQuery c q =>
    cases hq : q.query_type with
    | GET search =>
      simp only [step, hq] at hw
      cases hev : evalGetFn procs s.db search with
      | none => simp only [hev] at hw; exact Or.inl hw
      | some res =>
        simp only [hev] at hw
        by_cases hc : c ∈ s.clients
        · simp only [hc, if_pos] at hw
          cases ok with
          | false => simp only [Bool.false_eq_true, if_neg, not_false_iff] at hw; exact Or.inl hw
          | true => simp only [if_pos] at hw; exact Or.inl hw
        · simp only [hc, if_neg, not_false_iff] at hw; exact Or.inl hw
    | WATCH search =>
      simp only [step, hq, List.mem_append, List.mem_singleton] at hw
      rcases hw with hw | hw
      · exact Or.inl hw
      · subst hw
        exact Or.inr ⟨c, search, by rw [← hq], rfl⟩
    | UNWATCH =>
      simp only [step, hq, List.mem_filter] at hw
      exact Or.inl hw.1
    | INSERT key value => simp only [step, hq] at hw; exact Or.inl hw

/-- With a successful send, handling any event other than the client's own
disconnect keeps that client in the client table. -/
theorem step_clients_mem (procs : Procs) (s : ServerState) (e : ServerEvent)
    (c : ClientID) (hc : c ∈ s.clients) (hne : e ≠ .ClientDisconnected c) :
    c ∈ (step procs true s e).state.clients := by
  cases e with
  | ClientConnected c' =>
    simp only [step, insertClient]
    split
    · exact hc
    · exact List.mem_cons_of_mem _ hc
  | ClientDisconnected c' =>
    have hcc : c ≠ c' := fun h => hne (by rw [h])
    simp only [step, List.mem_filter]
    exact ⟨hc, by simpa [bne_iff_ne] using hcc⟩
  | ClientQuery c' q =>
    cases hq : q.query_type with
    | GET search =>
      simp only [step, hq]
      cases hev : evalGetFn procs s.db search with
      | none => exact hc
      | some res =>
        simp only
        by_cases hc' : c' ∈ s.clients
        · simp only [hc', if_pos, if_pos]
          exact hc
        · simp only [hc', if_neg, not_false_iff]
          exact hc
    | WATCH search => simpa [step, hq] using hc
    | UNWATCH => simpa [step, hq] using hc
    | INSERT key value => simpa [step, hq] using hc

/-!
## Helper lemmas about whole runs of the event loop
-/

theorem run_cons (procs : Procs) (oracle : Nat → Bool) (fuel i : Nat)
    (s : ServerState) (e : ServerEvent) (Q : List ServerEvent) :
    run procs oracle (fuel + 1) i s (e :: Q) =
      ⟨e, (step procs (oracle i) s e).out⟩ ::
        run procs oracle fuel (i + 1) (step procs (oracle i) s e).state
          (Q ++ (step procs (oracle i) s e).enq) := rfl

/-- When no watch in the table carries `query_id` `q` and no queued event
does either, the whole run emits no response under `q`. -/
theorem run_no_qid (procs : Procs) (oracle : Nat → Bool) (q : String) :
    ∀ (fuel i : Nat) (s : ServerState) (Q : List ServerEvent),
      (∀ w ∈ s.watches, w.2.1 ≠ q) →
      (∀ e ∈ Q, eventQid e ≠ some q) →
      ∀ t ∈ run procs oracle fuel i s Q, ∀ r ∈ t.out, r.2.query_id ≠ q := by
  intro fuel
  induction fuel with
  | zero => intro i s Q _ _ t ht; simp [run] at ht
  | succ fuel ih =>
    intro i s Q hw hQ t ht
    cases Q with
    | nil => simp [run] at ht
    | cons e rest =>
      rw [run_cons] at ht
      rcases List.mem_cons.mp ht with ht | ht
      · subst ht
        intro r hr hrq
        obtain ⟨sel, hsel⟩ := step_out_shape procs (oracle i) s e r hr
        have : eventQid e = some r.2.query_id := by rw [hsel]; rfl
        exact hQ e (List.mem_cons_self _ _) (by rw [this, hrq])
      · refine ih (i + 1) _ _ ?_ ?_ t ht
        · intro w hw'
          rcases step_watches_shape procs (oracle i) s e w hw' with h | ⟨c, sel, he, _⟩
          · exact hw w h
          · intro hq'
            exact hQ e (List.mem_cons_self _ _) (by rw [he, ← hq']; rfl)
        · intro e' he'
          rcases List.mem_append.mp he' with h | h
          · exact hQ e' (List.mem_cons_of_mem _ h)
          · rcases step_enq_shape procs (oracle i) s e e' h with
              ⟨w, hwmem, rfl⟩ | ⟨c, qq, sel, he, rfl⟩
            · intro hq'
              exact hw w hwmem (by simpa [mkGet, eventQid] using hq')
            · intro hq'
              have : qq = q := by simpa [mkGet, eventQid] using hq'
              exact hQ e (List.mem_cons_self _ _) (by rw [he, this]; rfl)

/-- When the only watch under `query_id` `q` is `(c, q, sel)` and every
queued event under `q` is its re-evaluation GET, every response the run
emits under `q` goes to client `c`. -/
theorem run_qid_to_client (procs : Procs) (oracle : Nat → Bool)
    (c : ClientID) (q : String) (sel : GetFn) :
    ∀ (fuel i : Nat) (s : ServerState) (Q : List ServerEvent),
      (∀ w ∈ s.watches, w.2.1 = q → w = (c, q, sel)) →
      (∀ e ∈ Q, eventQid e = some q → e = mkGet c q sel) →
      ∀ t ∈ run procs oracle fuel i s Q, ∀ r ∈ t.out, r.2.query_id = q → r.1 = c := by
  intro fuel
  induction fuel with
  | zero => intro i s Q _ _ t ht; simp [run] at ht
  | succ fuel ih =>
    intro i s Q hw hQ t ht
    cases Q with
    | nil => simp [run] at ht
    | cons e rest =>
      rw [run_cons] at ht
      rcases List.mem_cons.mp ht with ht | ht
      · subst ht
        intro r hr hrq
        obtain ⟨sel', hsel⟩ := step_out_shape procs (oracle i) s e r hr
        have hq : eventQid e = some q := by rw [hsel, hrq]; rfl
        have := hQ e (List.mem_cons_self _ _) hq
        rw [this] at hsel
        simp only [mkGet, ServerEvent.ClientQuery.injEq] at hsel
        exact hsel.1.symm
      · refine ih (i + 1) _ _ ?_ ?_ t ht
        · intro w hw' hwq
          rcases step_watches_shape procs (oracle i) s e w hw' with h | ⟨c', sel', he, hw2⟩
          · exact hw w h hwq
          · exfalso
            have : eventQid e = some q := by rw [he, hwq]; rfl
            have := hQ e (List.mem_cons_self _ _) this
            rw [this] at he
            simp [mkGet] at he
        · intro e' he'
          rcases List.mem_append.mp he' with h | h
          · exact hQ e' (List.mem_cons_of_mem _ h)
          · rcases step_enq_shape procs (oracle i) s e e' h with
              ⟨w, hwmem, rfl⟩ | ⟨c', qq, sel', he, rfl⟩
            · intro hq'
              have hwq : w.2.1 = q := by simpa [mkGet, eventQid] using hq'
              have := hw w hwmem hwq
              rw [this]
            · intro hq'
              exfalso
              have hqq : qq = q := by simpa [mkGet, eventQid] using hq'
              have : eventQid e = some q := by rw [he, hqq]; rfl
              have := hQ e (List.mem_cons_self _ _) this
              rw [this] at he
              simp [mkGet] at he

/-- FIFO decomposition of a run: the first `A.length` handled events are
exactly `A`, everything `A`'s handling enqueues lands after `B`, and the
run then continues from the reached state. -/
theorem run_through (procs : Procs) (oracle : Nat → Bool) :
    ∀ (A : List ServerEvent) (fuel i : Nat) (s : ServerState) (B : List ServerEvent),
      run procs oracle (A.length + fuel) i s (A ++ B) =
        (procList procs oracle A i s).2.2 ++
          run procs oracle fuel (i + A.length) (procList procs oracle A i s).1
            (B ++ (procList procs oracle A i s).2.1) := by
  intro A
  induction A with
  | nil => intro fuel i s B; simp [procList]
  | cons e A' ih =>
    intro fuel i s B
    have hlen : (e :: A').length + fuel = (A'.length + fuel) + 1 := by
      simp [List.length_cons]; omega
    rw [hlen]
    rw [show (e :: A') ++ B = e :: (A' ++ B) from rfl]
    rw [run_cons]
    rw [show (A' ++ B) ++ (step procs (oracle i) s e).enq
        = A' ++ (B ++ (step procs (oracle i) s e).enq) from by simp]
    rw [ih fuel (i + 1) (step procs (oracle i) s e).state
      (B ++ (step procs (oracle i) s e).enq)]
    simp only [procList, List.append_assoc, List.cons_append]
    have hidx : i + 1 + A'.length = i + (e :: A').length := by
      simp [List.length_cons]; omega
    rw [hidx]

/-- Working through events that neither carry `query_id` `q` nor disconnect
client `c`, from a state with no watch under `q`, with all sends
succeeding: no watch under `q` appears, everything self-enqueued is a
client query not under `q`, `c` stays connected, and no response under `q`
is written. -/
theorem procList_phaseA (procs : Procs) (oracle : Nat → Bool)
    (hor : ∀ j, oracle j = true) (c : ClientID) (q : String) :
    ∀ (A : List ServerEvent) (i : Nat) (s : ServerState),
      (∀ w ∈ s.watches, w.2.1 ≠ q) →
      (∀ e ∈ A, eventQid e ≠ some q) →
      (∀ e ∈ A, e ≠ .ClientDisconnected c) →
      c ∈ s.clients →
      (∀ w ∈ (procList procs oracle A i s).1.watches, w.2.1 ≠ q)
      ∧ (∀ e ∈ (procList procs oracle A i s).2.1, eventQid e ≠ some q)
      ∧ (∀ e ∈ (procList procs oracle A i s).2.1, ∀ c', e ≠ .ClientDisconnected c')
      ∧ c ∈ (procList procs oracle A i s).1.clients
      ∧ (∀ t ∈ (procList procs oracle A i s).2.2, ∀ r ∈ t.out, r.2.query_id ≠ q) := by
  intro A
  induction A with
  | nil =>
    intro i s hw _ _ hc
    exact ⟨hw, by simp [procList], by simp [procList], hc, by simp [procList]⟩
  | cons e A' ih =>
    intro i s hw hA hd hc
    have hstep : step procs (oracle i) s e = step procs true s e := by rw [hor i]
    have hw' : ∀ w ∈ (step procs (oracle i) s e).state.watches, w.2.1 ≠ q := by
      intro w hmem
      rcases step_watches_shape procs (oracle i) s e w hmem with h | ⟨c', sel, he, _⟩
      · exact hw w h
      · intro hq'
        exact hA e (List.mem_cons_self _ _) (by rw [he, ← hq']; rfl)
    have hc' : c ∈ (step procs (oracle i) s e).state.clients := by
      rw [hstep]
      exact step_clients_mem procs s e c hc (hd e (List.mem_cons_self _ _))
    have henq_q : ∀ e' ∈ (step procs (oracle i) s e).enq, eventQid e' ≠ some q := by
      intro e' he'
      rcases step_enq_shape procs (oracle i) s e e' he' with
        ⟨w, hwmem, rfl⟩ | ⟨c', qq, sel, he, rfl⟩
      · intro hq'
        exact hw w hwmem (by simpa [mkGet, eventQid] using hq')
      · intro hq'
        have : qq = q := by simpa [mkGet, eventQid] using hq'
        exact hA e (List.mem_cons_self _ _) (by rw [he, this]; rfl)
    have henq_d : ∀ e' ∈ (step procs (oracle i) s e).enq, ∀ c', e' ≠ .ClientDisconnected c' := by
      intro e' he' c'
      rcases step_enq_shape procs (oracle i) s e e' he' with
        ⟨w, _, rfl⟩ | ⟨c2, qq, sel, _, rfl⟩ <;> simp [mkGet]
    obtain ⟨ih1, ih2, ih3, ih4, ih5⟩ :=
      ih (i + 1) (step procs (oracle i) s e).state hw'
        (fun e' he' => hA e' (List.mem_cons_of_mem _ he'))
        (fun e' he' => hd e' (List.mem_cons_of_mem _ he')) hc'
    refine ⟨ih1, ?_, ?_, ih4, ?_⟩
    · intro e' he'
      rcases List.mem_append.mp he' with h | h
      · exact henq_q e' h
      · exact ih2 e' h
    · intro e' he'
      rcases List.mem_append.mp he' with h | h
      · exact henq_d e' h
      · exact ih3 e' h
    · intro t ht
      rcases List.mem_cons.mp ht with ht | ht
      · subst ht
        intro r hr hrq
        obtain ⟨sel, hsel⟩ := step_out_shape procs (oracle i) s e r hr
        exact hA e (List.mem_cons_self _ _) (by rw [hsel, ← hrq]; rfl)
      · exact ih5 t ht

/-- Working through events that neither carry `query_id` `q` nor disconnect
client `c`, from a state whose only watch under `q` is `(c, q, sel)`, with
all sends succeeding: that stays the only watch under `q`, everything
self-enqueued under `q` is its re-evaluation GET and nothing self-enqueued
is a disconnect, `c` stays connected, and no response under `q` is written
by these events themselves. -/
theorem procList_phaseB (procs : Procs) (oracle : Nat → Bool)
    (hor : ∀ j, oracle j = true) (c : ClientID) (q : String) (sel : GetFn) :
    ∀ (A : List ServerEvent) (i : Nat) (s : ServerState),
      (∀ w ∈ s.watches, w.2.1 = q → w = (c, q, sel)) →
      (∀ e ∈ A, eventQid e ≠ some q) →
      (∀ e ∈ A, e ≠ .ClientDisconnected c) →
      c ∈ s.clients →
      (∀ w ∈ (procList procs oracle A i s).1.watches, w.2.1 = q → w = (c, q, sel))
      ∧ (∀ e ∈ (procList procs oracle A i s).2.1, eventQid e = some q → e = mkGet c q sel)
      ∧ (∀ e ∈ (procList procs oracle A i s).2.1, ∀ c', e ≠ .ClientDisconnected c')
      ∧ c ∈ (procList procs oracle A i s).1.clients
      ∧ (∀ t ∈ (procList procs oracle A i s).2.2, ∀ r ∈ t.out, r.2.query_id ≠ q) := by
  intro A
  induction A with
  | nil =>
    intro i s hw _ _ hc
    exact ⟨hw, by simp [procList], by simp [procList], hc, by simp [procList]⟩
  | cons e A' ih =>
    intro i s hw hA hd hc
    have hstep : step procs (oracle i) s e = step procs true s e := by rw [hor i]
    have hw' : ∀ w ∈ (step procs (oracle i) s e).state.watches, w.2.1 = q → w = (c, q, sel) := by
      intro w hmem hwq
      rcases step_watches_shape procs (oracle i) s e w hmem with h | ⟨c', sel', he, _⟩
      · exact hw w h hwq
      · exact absurd (by rw [he, hwq]; rfl) (hA e (List.mem_cons_self _ _))
    have hc' : c ∈ (step procs (oracle i) s e).state.clients := by
      rw [hstep]
      exact step_clients_mem procs s e c hc (hd e (List.mem_cons_self _ _))
    have henq_q : ∀ e' ∈ (step procs (oracle i) s e).enq,
        eventQid e' = some q → e' = mkGet c q sel := by
      intro e' he' hq'
      rcases step_enq_shape procs (oracle i) s e e' he' with
        ⟨w, hwmem, rfl⟩ | ⟨c', qq, sel', he, rfl⟩
      · have hwq : w.2.1 = q := by simpa [mkGet, eventQid] using hq'
        rw [hw w hwmem hwq]
      · have : qq = q := by simpa [mkGet, eventQid] using hq'
        exact absurd (by rw [he, this]; rfl) (hA e (List.mem_cons_self _ _))
    have henq_d : ∀ e' ∈ (step procs (oracle i) s e).enq, ∀ c', e' ≠ .ClientDisconnected c' := by
      intro e' he' c'
      rcases step_enq_shape procs (oracle i) s e e' he' with
        ⟨w, _, rfl⟩ | ⟨c2, qq, sel', _, rfl⟩ <;> simp [mkGet]
    obtain ⟨ih1, ih2, ih3, ih4, ih5⟩ :=
      ih (i + 1) (step procs (oracle i) s e).state hw'
        (fun e' he' => hA e' (List.mem_cons_of_mem _ he'))
        (fun e' he' => hd e' (List.mem_cons_of_mem _ he')) hc'
    refine ⟨ih1, ?_, ?_, ih4, ?_⟩
    · intro e' he'
      rcases List.mem_append.mp he' with h | h
      · exact henq_q e' h
      · exact ih2 e' h
    · intro e' he'
      rcases List.mem_append.mp he' with h | h
      · exact henq_d e' h
      · exact ih3 e' h
    · intro t ht
      rcases List.mem_cons.mp ht with ht | ht
      · subst ht
        intro r hr hrq
        obtain ⟨sel', hsel⟩ := step_out_shape procs (oracle i) s e r hr
        exact hA e (List.mem_cons_self _ _) (by rw [hsel, ← hrq]; rfl)
      · exact ih5 t ht

/-!
## Helper lemmas about the client-side correlator
-/

theorem cbLookup_remove_self (m : CBMap) (qid : String) :
    cbLookup (cbRemove m qid) qid = none := by
  simp only [cbLookup, cbRemove, Option.map_eq_none']
  rw [List.find?_eq_none]
  intro x hx
  have := (List.mem_filter.mp hx).2
  simp only [bne_iff_ne, ne_eq] at this
  simp [this]

theorem cbLookup_remove_of_none (m : CBMap) (qid qid' : String)
    (h : cbLookup m qid = none) : cbLookup (cbRemove m qid') qid = none := by
  simp only [cbLookup, cbRemove, Option.map_eq_none'] at h ⊢
  rw [List.find?_eq_none] at h ⊢
  intro x hx
  exact h x (List.mem_filter.mp hx).1

theorem cbLookup_remove_ne (m : CBMap) (qid qid' : String) (h : qid' ≠ qid) :
    cbLookup (cbRemove m qid) qid' = cbLookup m qid' := by
  induction m with
  | nil => rfl
  | cons e m' ih =>
    by_cases he : e.1 = qid
    · have hne : (e.1 == qid') = false := by
        subst he
        exact beq_eq_false_iff_ne.mpr fun hq => h hq.symm
      have hrm : cbRemove (e :: m') qid = cbRemove m' qid := by
        simp [cbRemove, List.filter_cons, he]
      rw [hrm, ih]
      simp [cbLookup, List.find?_cons, hne]
    · have hrm : cbRemove (e :: m') qid = e :: cbRemove m' qid := by
        simp [cbRemove, List.filter_cons, bne_iff_ne, he]
      rw [hrm]
      by_cases hq : e.1 = qid'
      · simp [cbLookup, List.find?_cons, hq]
      · have h1 : (e.1 == qid') = false := beq_eq_false_iff_ne.mpr hq
        simp only [cbLookup, List.find?_cons, h1]
        simpa only [cbLookup, cbRemove] using ih

theorem dispatch_map_none (m : CBMap) (ok : Bool) (r : Response) (qid : String)
    (h : cbLookup m qid = none) : cbLookup (dispatch m ok r).1 qid = none := by
  unfold dispatch
  cases hl : cbLookup m r.query_id with
  | none => exact h
  | some entry =>
    simp only
    split
    · exact h
    · exact cbLookup_remove_of_none m qid r.query_id h

theorem dispatch_delivery_qid (m : CBMap) (ok : Bool) (r : Response) :
    ∀ d ∈ (dispatch m ok r).2.toList, d.1 = r.query_id := by
  intro d hd
  unfold dispatch at hd
  cases hl : cbLookup m r.query_id with
  | none => simp [hl] at hd
  | some entry =>
    rw [hl] at hd
    cases ok with
    | false => simp at hd
    | true =>
      simp at hd
      rw [hd]

/-- Once a `query_id` has no entry in the callback map, dispatching any
further responses never delivers under it and never brings it back. -/
theorem dispatchAll_none (qid : String) :
    ∀ (rs : List (Bool × Response)) (m : CBMap), cbLookup m qid = none →
      (∀ d ∈ (dispatchAll m rs).2, d.1 ≠ qid)
      ∧ cbLookup (dispatchAll m rs).1 qid = none := by
  intro rs
  induction rs with
  | nil => intro m h; exact ⟨by simp [dispatchAll], h⟩
  | cons p rs' ih =>
    intro m h
    rcases p with ⟨ok, r⟩
    have hm' := dispatch_map_none m ok r qid h
    obtain ⟨ih1, ih2⟩ := ih (dispatch m ok r).1 hm'
    constructor
    · intro d hd
      simp only [dispatchAll, List.mem_append] at hd
      rcases hd with hd | hd
      · intro hq
        have := dispatch_delivery_qid m ok r d hd
        rw [hq] at this
        have hnone : cbLookup m r.query_id = none := by rw [← this]; exact h
        unfold dispatch at hd
        rw [hnone] at hd
        simp at hd
      · exact ih1 d hd
    · exact ih2

/-!
## Helper lemmas about the prefix scan
-/

theorem decodeEntry_eq_some {e : RawKey × RawVal} {kv : KVPair} :
    decodeEntry e = some kv ↔ e.1 = RawKey.utf8 kv.key ∧ e.2.decode = some kv.value := by
  rcases e with ⟨k, v⟩
  rcases kv with ⟨kk, kval⟩
  cases k with
  | utf8 s =>
    cases v with
    | json j =>
      simp [decodeEntry, RawKey.decode, RawVal.decode, RawKey.utf8.injEq,
        KVPair.mk.injEq, eq_comm]
    | bad b => simp [decodeEntry, RawKey.decode, RawVal.decode]
  | bad b =>
    cases v <;> simp [decodeEntry, RawKey.decode, RawVal.decode]

/-- A non-persistent callback entry delivers at most once: the first
response dispatched under its `query_id` removes it. -/
theorem dispatchAll_get_once (qid : String) (ib : Nat) :
    ∀ (rs : List (Bool × Response)) (m : CBMap),
      cbLookup m qid = some ⟨false, ib⟩ →
      List.countP (fun d => d.1 == qid) (dispatchAll m rs).2 ≤ 1 := by
  intro rs
  induction rs with
  | nil => intro m _; simp [dispatchAll]
  | cons p rs' ih =>
    intro m h
    rcases p with ⟨ok, r⟩
    simp only [dispatchAll]
    rw [List.countP_append]
    by_cases hr : r.query_id = qid
    · subst hr
      have hmap : (dispatch m ok r).1 = cbRemove m r.query_id := by
        unfold dispatch
        rw [h]
        simp
      have hnone : cbLookup (dispatch m ok r).1 r.query_id = none := by
        rw [hmap]
        exact cbLookup_remove_self m r.query_id
      have hrest : List.countP (fun d => d.1 == r.query_id)
          (dispatchAll (dispatch m ok r).1 rs').2 = 0 := by
        rw [List.countP_eq_zero]
        intro d hd
        have := (dispatchAll_none r.query_id rs' _ hnone).1 d hd
        simp only [beq_iff_eq]
        exact this
      have hhead : List.countP (fun d => d.1 == r.query_id)
          (dispatch m ok r).2.toList ≤ 1 := by
        refine le_trans (List.countP_le_length _) ?_
        cases (dispatch m ok r).2 <;> simp
      omega
    · have hqr : qid ≠ r.query_id := fun hq => hr hq.symm
      have hpres : cbLookup (dispatch m ok r).1 qid = some ⟨false, ib⟩ := by
        unfold dispatch
        cases hl : cbLookup m r.query_id with
        | none => exact h
        | some entry =>
          simp only
          split
          · exact h
          · rw [cbLookup_remove_ne m r.query_id qid hqr]
            exact h
      have hhead : List.countP (fun d => d.1 == qid) (dispatch m ok r).2.toList = 0 := by
        rw [List.countP_eq_zero]
        intro d hd
        have := dispatch_delivery_qid m ok r d hd
        simp only [beq_iff_eq]
        rw [this]
        exact hr
      rw [hhead]
      simpa using ih (dispatch m ok r).1 hpres

/-!
## The claims
-/

/-- C1, counterexample: the insert fan-out loop filters only `Procedure`
watches, so a `Prefix("a")` watch gets a re-evaluation GET self-enqueued by
`INSERT("b", null)` even though `"b"` does not start with `"a"`, refuting
the claim that a non-matching Prefix watch receives no re-evaluation. -/
theorem prefix_watch_nonmatching_reevaluated :
    strStartsWith "b" "a" = false
    ∧ (step [] true ⟨[0], [(0, "q", GetFn.Prefix "a")], []⟩
          (.ClientQuery 0 ⟨.INSERT "b" Json.null, "i"⟩)).enq
        = [mkGet 0 "q" (GetFn.Prefix "a")] :=
  ⟨rfl, rfl⟩

/-- C1, amended: for every processed INSERT event, every `Prefix` watch
entry has a re-evaluation GET self-enqueued for it, unconditionally — the
fan-out filter applies only to `Procedure` watches, so the prefix of the
watch is not compared with the inserted key at all. -/
theorem insert_reevaluates_every_prefix_watch (procs : Procs) (ok : Bool)
    (s : ServerState) (c0 : ClientID) (qi key : String) (v : Json)
    (c : ClientID) (q p : String) :
    mkGet c q (GetFn.Prefix p)
        ∈ (step procs ok s (.ClientQuery c0 ⟨.INSERT key v, qi⟩)).enq
      ↔ (c, q, GetFn.Prefix p) ∈ s.watches := by
  have henq : (step procs ok s (.ClientQuery c0 ⟨.INSERT key v, qi⟩)).enq
      = insertFanout s.watches key := rfl
  rw [henq]
  exact mem_insertFanout_prefix

/-- C2, counterexample: invariant I1 read as an "iff" is not preserved.
From a state satisfying it, a GET whose response write fails removes the
client but leaves its watch behind (watch entry without client-table key);
and already a bare `ClientConnected` yields a client-table key without any
watch entry. -/
theorem i1_not_preserved_counterexample :
    (i1 ⟨[0], [(0, "w", GetFn.Prefix "")], []⟩
      ∧ ¬ i1 (step [] false ⟨[0], [(0, "w", GetFn.Prefix "")], []⟩
            (.ClientQuery 0 ⟨.GET (.Prefix ""), "g"⟩)).state)
    ∧ (i1 ⟨[], [], []⟩
      ∧ ¬ i1 (step [] true ⟨[], [], []⟩ (.ClientConnected 0)).state) := by
  have h1 : (step [] false ⟨[0], [(0, "w", GetFn.Prefix "")], []⟩
      (.ClientQuery 0 ⟨.GET (.Prefix ""), "g"⟩)).state
      = ⟨[], [(0, "w", GetFn.Prefix "")], []⟩ := rfl
  have h2 : (step [] true ⟨[], [], []⟩ (.ClientConnected 0)).state
      = ⟨[0], [], []⟩ := rfl
  refine ⟨⟨?_, ?_⟩, ?_, ?_⟩
  · simp only [i1]
    intro c
    constructor
    · rintro ⟨w, hw, hwc⟩
      simp only [List.mem_singleton] at hw
      subst hw
      rw [← hwc]
      simp
    · intro hc
      simp only [List.mem_singleton] at hc
      subst hc
      exact ⟨(0, "w", GetFn.Prefix ""), by simp, rfl⟩
  · rw [h1]
    intro hi
    have := (hi 0).mp ⟨(0, "w", GetFn.Prefix ""), by simp, rfl⟩
    simp at this
  · simp only [i1]
    intro c
    simp
  · rw [h2]
    intro hi
    obtain ⟨w, hw, _⟩ := (hi 0).mpr (by simp)
    simp at hw

/-- C2, amended: the forward direction of I1 — every watch-table entry's
`client_id` is a key of the client table — is preserved by every event
whose handling performs no failing response write, provided WATCH events
come from connected clients; and handling `ClientDisconnected c` removes
every watch entry of `c` (restoring the invariant a failing write broke).
The backward direction of the claimed "iff" fails already for a freshly
connected client with no watches, and a GET whose write fails breaks the
forward direction until that client's disconnect is handled. -/
theorem i1fwd_preserved (procs : Procs) (s : ServerState) (e : ServerEvent)
    (hinv : i1fwd s)
    (hwatch : ∀ c q sel, e = .ClientQuery c ⟨.WATCH sel, q⟩ → c ∈ s.clients) :
    i1fwd (step procs true s e).state
    ∧ ∀ (ok : Bool) (c : ClientID) (w : ClientID × String × GetFn),
        w ∈ (step procs ok s (.ClientDisconnected c)).state.watches → w.1 ≠ c := by
  constructor
  · cases e with
    | ClientConnected c' =>
      intro w hw
      have hc := hinv w hw
      simp only [step, insertClient]
      split
      · exact hc
      · exact List.mem_cons_of_mem _ hc
    | ClientDisconnected c' =>
      intro w hw
      simp only [step, List.mem_filter] at hw ⊢
      exact ⟨hinv w hw.1, hw.2⟩
    | ClientQuery c' q =>
      cases hq : q.query_type with
      | GET search =>
        intro w hw
        simp only [step, hq] at hw ⊢
        cases hev : evalGetFn procs s.db search with
        | none =>
          rw [hev] at hw
          exact hinv w hw
        | some res =>
          rw [hev] at hw
          by_cases hc' : c' ∈ s.clients
          · simp only [hc', if_pos, if_pos] at hw ⊢
            exact hinv w hw
          · simp only [hc', if_neg, not_false_iff] at hw ⊢
            exact hinv w hw
      | WATCH search =>
        intro w hw
        simp only [step, hq, List.mem_append, List.mem_singleton] at hw
        simp only [step, hq]
        rcases hw with hw | hw
        · exact hinv w hw
        · subst hw
          exact hwatch c' q.query_id search (by rw [← hq])
      | UNWATCH =>
        intro w hw
        simp only [step, hq, List.mem_filter] at hw
        simp only [step, hq]
        exact hinv w hw.1
      | INSERT key value =>
        intro w hw
        simp only [step, hq] at hw ⊢
        exact hinv w hw
  · intro ok c w hw
    simp only [step, List.mem_filter, bne_iff_ne] at hw
    exact hw.2

/-- C2, witness for the amended theorem at a concrete state and WATCH
event with a connected client. -/
theorem i1fwd_preserved_witness :
    i1fwd ⟨[0], [(0, "w", GetFn.Prefix "")], []⟩
    ∧ (i1fwd (step [] true ⟨[0], [(0, "w", GetFn.Prefix "")], []⟩
          (.ClientQuery 0 ⟨.WATCH (.Prefix "a"), "w2"⟩)).state
      ∧ ∀ (ok : Bool) (c : ClientID) (w : ClientID × String × GetFn),
          w ∈ (step [] ok ⟨[0], [(0, "w", GetFn.Prefix "")], []⟩
              (.ClientDisconnected c)).state.watches → w.1 ≠ c) :=
  ⟨by
    intro w hw
    simp only [List.mem_singleton] at hw
    subst hw
    simp,
    i1fwd_preserved [] ⟨[0], [(0, "w", GetFn.Prefix "")], []⟩
      (.ClientQuery 0 ⟨.WATCH (.Prefix "a"), "w2"⟩)
      (by
        intro w hw
        simp only [List.mem_singleton] at hw
        subst hw
        simp)
      (by
        intro c q sel h
        injection h with h1 h2
        rw [← h1]
        simp)⟩

/-- C3, counterexample: a WATCH on `Prefix("")` under `query_id` `"q"`, an
INSERT, then the client's UNWATCH, all queued before the insert's
self-enqueued notification GET is handled.  The UNWATCH is handled at
trace position 2, yet position 3 — the straggler notification GET — still
emits a response under `query_id` `"q"` to the client, refuting the claim
that no event handled after the UNWATCH emits one. -/
theorem unwatch_straggler_response :
    (run [] (fun _ => true) 5 0 ⟨[0, 1], [], []⟩
        [watchEv 0 "q" (GetFn.Prefix ""),
          .ClientQuery 1 ⟨.INSERT "k" Json.null, "i"⟩,
          .ClientQuery 0 ⟨.UNWATCH, "q"⟩])[2]?
      = some ⟨.ClientQuery 0 ⟨.UNWATCH, "q"⟩, []⟩
    ∧ (run [] (fun _ => true) 5 0 ⟨[0, 1], [], []⟩
        [watchEv 0 "q" (GetFn.Prefix ""),
          .ClientQuery 1 ⟨.INSERT "k" Json.null, "i"⟩,
          .ClientQuery 0 ⟨.UNWATCH, "q"⟩])[3]?
      = some ⟨mkGet 0 "q" (GetFn.Prefix ""), [(0, ⟨"q", [⟨"k", Json.null⟩]⟩)]⟩ :=
  ⟨rfl, rfl⟩

/-- C3, amended: once the UNWATCH for `query_id` `q` is handled, no event
of a queue that holds no event carrying `q` — in particular no straggler
notification GET self-enqueued by an earlier INSERT, and no new WATCH
under `q` — ever leads to a response under `q`.  The straggler case
excluded here is exactly the one the counterexample exhibits. -/
theorem unwatch_silences_cleared_queue (procs : Procs) (oracle : Nat → Bool)
    (ok : Bool) (fuel i : Nat) (s : ServerState) (c : ClientID) (q : String)
    (Q : List ServerEvent) (hq : ∀ e ∈ Q, eventQid e ≠ some q) :
    ∀ t ∈ run procs oracle fuel i
        (step procs ok s (.ClientQuery c ⟨.UNWATCH, q⟩)).state Q,
      ∀ r ∈ t.out, r.2.query_id ≠ q := by
  apply run_no_qid
  · intro w hw
    have hwatches : (step procs ok s (.ClientQuery c ⟨.UNWATCH, q⟩)).state.watches
        = s.watches.filter (fun w => w.2.1 != q) := rfl
    rw [hwatches] at hw
    exact bne_iff_ne.mp (List.mem_filter.mp hw).2
  · exact hq

/-- C3, witness for the amended theorem: after the UNWATCH, a GET under a
different `query_id` runs without producing anything under `"q"`. -/
theorem unwatch_silences_cleared_queue_witness :
    (∀ e ∈ [ServerEvent.ClientQuery 0 ⟨.GET (.Prefix ""), "r"⟩],
      eventQid e ≠ some "q")
    ∧ ∀ t ∈ run [] (fun _ => true) 3 0
        (step [] true ⟨[0], [(0, "q", GetFn.Prefix "")], []⟩
          (.ClientQuery 0 ⟨.UNWATCH, "q"⟩)).state
        [ServerEvent.ClientQuery 0 ⟨.GET (.Prefix ""), "r"⟩],
      ∀ r ∈ t.out, r.2.query_id ≠ "q" :=
  ⟨by decide,
    unwatch_silences_cleared_queue [] (fun _ => true) true 3 0
      ⟨[0], [(0, "q", GetFn.Prefix "")], []⟩ 0 "q"
      [ServerEvent.ClientQuery 0 ⟨.GET (.Prefix ""), "r"⟩] (by decide)⟩

/-- C4: for every processed INSERT event, a `Procedure(name, arg)` watch
entry has a re-evaluation GET self-enqueued iff `name` starts with the
inserted key; in particular a watch on `Procedure("get_all", null)` is not
re-evaluated by `INSERT("a", 1)` since `"get_all"` does not start with
`"a"`. -/
theorem insert_reevaluates_procedure_watch_iff :
    (∀ (procs : Procs) (ok : Bool) (s : ServerState) (c0 : ClientID)
        (qi key : String) (v : Json) (c : ClientID) (q name : String) (arg : Json),
      mkGet c q (GetFn.Procedure name arg)
          ∈ (step procs ok s (.ClientQuery c0 ⟨.INSERT key v, qi⟩)).enq
        ↔ ((c, q, GetFn.Procedure name arg) ∈ s.watches
            ∧ strStartsWith name key = true))
    ∧ insertFanout [(0, "q", GetFn.Procedure "get_all" Json.null)] "a" = [] := by
  constructor
  · intro procs ok s c0 qi key v c q name arg
    have henq : (step procs ok s (.ClientQuery c0 ⟨.INSERT key v, qi⟩)).enq
        = insertFanout s.watches key := rfl
    rw [henq]
    exact mem_insertFanout_procedure
  · rfl

/-- C5: handling a WATCH appends `(client_id, query_id, selector)` to the
watch table and self-enqueues a GET under the same `query_id`; and in any
run whose queue holds the WATCH between event lists `Q1`, `Q2` that carry
neither `query_id` `q` nor a disconnect of the client, from a state with
no watch under `q` and the client connected, with all sends succeeding and
the selector evaluable: the run decomposes so that no response under `q`
is emitted before the self-enqueued initial GET is handled, that GET emits
the initial snapshot response to the client, and every later response
under `q` — the updates — goes to that client, for every fuel beyond the
initial GET.  So the initial snapshot response is emitted before any
subsequent update response under the watch's `query_id`. -/
theorem watch_appends_and_snapshot_first (procs : Procs) (oracle : Nat → Bool)
    (s : ServerState) (Q1 Q2 : List ServerEvent) (c : ClientID) (q : String)
    (sel : GetFn)
    (hor : ∀ j, oracle j = true)
    (hw : ∀ w ∈ s.watches, w.2.1 ≠ q)
    (hq1 : ∀ e ∈ Q1, eventQid e ≠ some q)
    (hq2 : ∀ e ∈ Q2, eventQid e ≠ some q)
    (hd1 : ∀ e ∈ Q1, e ≠ .ClientDisconnected c)
    (hd2 : ∀ e ∈ Q2, e ≠ .ClientDisconnected c)
    (hc : c ∈ s.clients)
    (hsel : ∀ d : Db, (evalGetFn procs d sel).isSome = true) :
    (∀ ok : Bool, step procs ok s (watchEv c q sel)
        = ⟨{ s with watches := s.watches ++ [(c, q, sel)] }, [mkGet c q sel], []⟩)
    ∧ ∃ (fb : Nat) (T1 T2 : List TraceEntry) (res : List KVPair),
        (∀ t ∈ T1, ∀ r ∈ t.out, r.2.query_id ≠ q)
        ∧ (∀ t ∈ T2, ∀ r ∈ t.out, r.2.query_id ≠ q)
        ∧ ∀ extra : Nat, ∃ rest : List TraceEntry,
            run procs oracle (fb + extra) 0 s (Q1 ++ watchEv c q sel :: Q2)
              = T1 ++ ⟨watchEv c q sel, []⟩ ::
                  (T2 ++ ⟨mkGet c q sel, [(c, ⟨q, res⟩)]⟩ :: rest)
            ∧ ∀ t ∈ rest, ∀ r ∈ t.out, r.2.query_id = q → r.1 = c := by
  refine ⟨fun ok => rfl, ?_⟩
  obtain ⟨hA1, hA2, hA3, hA4, hA5⟩ :=
    procList_phaseA procs oracle hor c q Q1 0 s hw hq1 hd1 hc
  set s1 := (procList procs oracle Q1 0 s).1 with hs1
  set E1 := (procList procs oracle Q1 0 s).2.1 with hE1
  set T1 := (procList procs oracle Q1 0 s).2.2 with hT1
  set R := Q2 ++ E1 with hR
  set s2 : ServerState := { s1 with watches := s1.watches ++ [(c, q, sel)] } with hs2
  have hw2 : ∀ w ∈ s2.watches, w.2.1 = q → w = (c, q, sel) := by
    intro w hwm hwq
    rw [hs2] at hwm
    simp only [List.mem_append, List.mem_singleton] at hwm
    rcases hwm with h | h
    · exact absurd hwq (hA1 w h)
    · exact h
  have hqR : ∀ e ∈ R, eventQid e ≠ some q := by
    intro e he
    rcases List.mem_append.mp he with h | h
    · exact hq2 e h
    · exact hA2 e h
  have hdR : ∀ e ∈ R, e ≠ .ClientDisconnected c := by
    intro e he
    rcases List.mem_append.mp he with h | h
    · exact hd2 e h
    · exact hA3 e h c
  have hc2 : c ∈ s2.clients := hA4
  obtain ⟨hB1, hB2, hB3, hB4, hB5⟩ :=
    procList_phaseB procs oracle hor c q sel R (0 + Q1.length + 1) s2 hw2 hqR hdR hc2
  set s3 := (procList procs oracle R (0 + Q1.length + 1) s2).1 with hs3
  set E2 := (procList procs oracle R (0 + Q1.length + 1) s2).2.1 with hE2
  set T2 := (procList procs oracle R (0 + Q1.length + 1) s2).2.2 with hT2
  obtain ⟨res, hres⟩ := Option.isSome_iff_exists.mp (hsel s3.db)
  have hgstep : step procs true s3 (mkGet c q sel) = ⟨s3, [], [(c, ⟨q, res⟩)]⟩ := by
    simp [step, mkGet, hres, hB4]
  refine ⟨Q1.length + 1 + R.length + 1, T1, T2, res, hA5, hB5, ?_⟩
  intro extra
  refine ⟨run procs oracle extra (0 + Q1.length + 1 + R.length + 1) s3 E2, ?_, ?_⟩
  · have harith : Q1.length + 1 + R.length + 1 + extra
        = Q1.length + (1 + (R.length + (1 + extra))) := by omega
    rw [harith]
    rw [run_through procs oracle Q1 (1 + (R.length + (1 + extra))) 0 s
      (watchEv c q sel :: Q2)]
    rw [← hs1, ← hE1, ← hT1]
    have hm1 : 1 + (R.length + (1 + extra)) = (R.length + (1 + extra)) + 1 := by omega
    have hq1' : (watchEv c q sel :: Q2) ++ E1 = watchEv c q sel :: R := by
      rw [hR, List.cons_append]
    rw [hm1, hq1', run_cons]
    rw [hor (0 + Q1.length)]
    have hwstep : step procs true s1 (watchEv c q sel)
        = ⟨s2, [mkGet c q sel], []⟩ := rfl
    rw [hwstep]
    dsimp only
    rw [run_through procs oracle R (1 + extra) (0 + Q1.length + 1) s2 [mkGet c q sel]]
    rw [← hs3, ← hE2, ← hT2]
    have hm3 : 1 + extra = extra + 1 := by omega
    have hq2' : ([mkGet c q sel] : List ServerEvent) ++ E2 = mkGet c q sel :: E2 := rfl
    rw [hm3, hq2', run_cons]
    rw [hor (0 + Q1.length + 1 + R.length)]
    rw [hgstep]
    dsimp only
    rw [List.append_nil]
  · exact run_qid_to_client procs oracle c q sel extra _ s3 E2 hB1 hB2

/-- C5, witness: a single WATCH on `Prefix("")` from a connected client,
with empty surrounding queues and the all-success oracle. -/
theorem watch_appends_and_snapshot_first_witness :
    (∀ j : Nat, (fun _ : Nat => true) j = true)
    ∧ (∀ w ∈ ([] : List (ClientID × String × GetFn)), w.2.1 ≠ "q")
    ∧ (0 : ClientID) ∈ [0]
    ∧ (∀ d : Db, (evalGetFn [] d (GetFn.Prefix "")).isSome = true)
    ∧ ((∀ ok : Bool, step [] ok ⟨[0], [], []⟩ (watchEv 0 "q" (GetFn.Prefix ""))
          = ⟨⟨[0], [(0, "q", GetFn.Prefix "")], []⟩, [mkGet 0 "q" (GetFn.Prefix "")], []⟩)
      ∧ ∃ (fb : Nat) (T1 T2 : List TraceEntry) (res : List KVPair),
          (∀ t ∈ T1, ∀ r ∈ t.out, r.2.query_id ≠ "q")
          ∧ (∀ t ∈ T2, ∀ r ∈ t.out, r.2.query_id ≠ "q")
          ∧ ∀ extra : Nat, ∃ rest : List TraceEntry,
              run [] (fun _ => true) (fb + extra) 0 ⟨[0], [], []⟩
                  ([] ++ watchEv 0 "q" (GetFn.Prefix "") :: [])
                = T1 ++ ⟨watchEv 0 "q" (GetFn.Prefix ""), []⟩ ::
                    (T2 ++ ⟨mkGet 0 "q" (GetFn.Prefix ""), [(0, ⟨"q", res⟩)]⟩ :: rest)
              ∧ ∀ t ∈ rest, ∀ r ∈ t.out, r.2.query_id = "q" → r.1 = 0) :=
  ⟨fun _ => rfl, by simp, by simp, fun _ => rfl,
    watch_appends_and_snapshot_first [] (fun _ => true) ⟨[0], [], []⟩ [] [] 0 "q"
      (GetFn.Prefix "") (fun _ => rfl) (by simp) (by simp) (by simp) (by simp)
      (by simp) (by simp) (fun _ => rfl)⟩

/-- C6: over a store satisfying the contract's ordering invariant,
`get_query` returns exactly the stored pairs whose key starts with the
prefix and whose key and value decode (a pair is in the result iff a row
for its key is stored, the value decodes to it, and the key starts with
the prefix — rows failing UTF-8 or JSON decoding are skipped and iteration
proceeds); the result is strictly ascending in key-byte order; and the
empty prefix returns every decodable pair. -/
theorem get_query_spec (db : Db) (p : String) (hs : dbSorted db) :
    (∀ kv : KVPair, kv ∈ get_query p db ↔
        ∃ rv : RawVal, (RawKey.utf8 kv.key, rv) ∈ db ∧ rv.decode = some kv.value
          ∧ strStartsWith kv.key p = true)
    ∧ List.Pairwise (fun a b : KVPair => bytesLt (strBytes a.key) (strBytes b.key) = true)
        (get_query p db)
    ∧ get_query "" db = db.filterMap decodeEntry := by
  refine ⟨?_, ?_, ?_⟩
  · intro kv
    simp only [get_query, scanPrefix, List.mem_filterMap, List.mem_filter]
    constructor
    · rintro ⟨e, ⟨hmem, hpref⟩, hdec⟩
      obtain ⟨h1, h2⟩ := decodeEntry_eq_some.mp hdec
      refine ⟨e.2, ?_, h2, ?_⟩
      · rw [← h1]
        exact hmem
      · rw [h1] at hpref
        exact hpref
    · rintro ⟨rv, hmem, hdec, hpref⟩
      exact ⟨(RawKey.utf8 kv.key, rv), ⟨hmem, hpref⟩,
        decodeEntry_eq_some.mpr ⟨rfl, hdec⟩⟩
  · unfold get_query
    refine List.Pairwise.filterMap decodeEntry ?_
      (List.Pairwise.sublist (List.filter_sublist db) hs)
    intro a b hR x hx y hy
    rw [Option.mem_def] at hx hy
    obtain ⟨ha1, _⟩ := decodeEntry_eq_some.mp hx
    obtain ⟨hb1, _⟩ := decodeEntry_eq_some.mp hy
    rw [ha1, hb1] at hR
    exact hR
  · have hall : db.filter (fun e => (strBytes "").isPrefixOf e.1.bytes) = db :=
      List.filter_eq_self.mpr fun a _ => by cases a.1.bytes <;> rfl
    unfold get_query scanPrefix
    rw [hall]

/-- C6, witness: a two-row store — one decodable row under `"a"`, one row
under `"b"` whose value bytes fail decoding — satisfies the ordering
contract and the theorem's conclusions for the prefix `"a"`. -/
theorem get_query_spec_witness :
    dbSorted [(RawKey.utf8 "a", RawVal.json Json.null), (RawKey.utf8 "b", RawVal.bad [])]
    ∧ ((∀ kv : KVPair,
          kv ∈ get_query "a"
              [(RawKey.utf8 "a", RawVal.json Json.null), (RawKey.utf8 "b", RawVal.bad [])]
            ↔ ∃ rv : RawVal,
                (RawKey.utf8 kv.key, rv)
                    ∈ [(RawKey.utf8 "a", RawVal.json Json.null),
                        (RawKey.utf8 "b", RawVal.bad [])]
                  ∧ rv.decode = some kv.value ∧ strStartsWith kv.key "a" = true)
      ∧ List.Pairwise (fun a b : KVPair => bytesLt (strBytes a.key) (strBytes b.key) = true)
          (get_query "a"
            [(RawKey.utf8 "a", RawVal.json Json.null), (RawKey.utf8 "b", RawVal.bad [])])
      ∧ get_query ""
            [(RawKey.utf8 "a", RawVal.json Json.null), (RawKey.utf8 "b", RawVal.bad [])]
          = [(RawKey.utf8 "a", RawVal.json Json.null),
              (RawKey.utf8 "b", RawVal.bad [])].filterMap decodeEntry) :=
  ⟨by
    refine List.Pairwise.cons ?_ (List.pairwise_singleton _ _)
    intro b hb
    simp only [List.mem_singleton] at hb
    subst hb
    rfl,
    get_query_spec
      [(RawKey.utf8 "a", RawVal.json Json.null), (RawKey.utf8 "b", RawVal.bad [])] "a"
      (by
        refine List.Pairwise.cons ?_ (List.pairwise_singleton _ _)
        intro b hb
        simp only [List.mem_singleton] at hb
        subst hb
        rfl)⟩

/-- C7: handling an UNWATCH event with `query_id` `q` removes exactly the
watch-table entries whose `query_id` equals `q`, from whichever client
they were registered, emits no response, self-enqueues nothing, and leaves
the client table and the database unchanged. -/
theorem unwatch_step_effects (procs : Procs) (ok : Bool) (s : ServerState)
    (c : ClientID) (q : String) :
    (step procs ok s (.ClientQuery c ⟨.UNWATCH, q⟩)).state.watches
        = s.watches.filter (fun w => w.2.1 != q)
    ∧ (∀ w, w ∈ (step procs ok s (.ClientQuery c ⟨.UNWATCH, q⟩)).state.watches
        ↔ w ∈ s.watches ∧ w.2.1 ≠ q)
    ∧ (step procs ok s (.ClientQuery c ⟨.UNWATCH, q⟩)).out = []
    ∧ (step procs ok s (.ClientQuery c ⟨.UNWATCH, q⟩)).enq = []
    ∧ (step procs ok s (.ClientQuery c ⟨.UNWATCH, q⟩)).state.clients = s.clients
    ∧ (step procs ok s (.ClientQuery c ⟨.UNWATCH, q⟩)).state.db = s.db := by
  refine ⟨rfl, ?_, rfl, rfl, rfl, rfl⟩
  intro w
  constructor
  · intro hw
    have hm := List.mem_filter.mp hw
    exact ⟨hm.1, bne_iff_ne.mp hm.2⟩
  · intro hw
    exact List.mem_filter.mpr ⟨hw.1, bne_iff_ne.mpr hw.2⟩

/-- C8: a GET of a `Procedure` selector whose name is not in the procedure
registry is logged and dropped: no response is emitted to any client,
nothing is self-enqueued, and the client table, watch table and database
are unchanged. -/
theorem unknown_procedure_dropped (procs : Procs) (ok : Bool)
    (s : ServerState) (c : ClientID) (q name : String) (arg : Json)
    (h : findProc procs name = none) :
    step procs ok s (.ClientQuery c ⟨.GET (.Procedure name arg), q⟩) = ⟨s, [], []⟩ := by
  simp [step, evalGetFn, h]

/-- C8, witness: the empty registry knows no procedure `"get_all"`. -/
theorem unknown_procedure_dropped_witness :
    findProc [] "get_all" = none
    ∧ step [] true ⟨[0], [], []⟩
        (.ClientQuery 0 ⟨.GET (.Procedure "get_all" Json.null), "g"⟩)
      = ⟨⟨[0], [], []⟩, [], []⟩ :=
  ⟨rfl, unknown_procedure_dropped [] true ⟨[0], [], []⟩ 0 "g" "get_all" Json.null rfl⟩

/-- C9: dropping a `RespWaiter` (the handle `watch` or `get` returns)
removes its `query_id` from the callback map and sends exactly one UNWATCH
frame — the single `Query` envelope `dropHandle` returns — carrying that
exact `query_id`; afterwards no dispatch of any inbound response sequence
delivers anything under that `query_id`, so nothing further can reach the
handle's inbox. -/
theorem drop_handle_unwatch_and_silence (m : CBMap) (qid : String)
    (rs : List (Bool × Response)) :
    (dropHandle m qid).2 = ⟨QueryType.UNWATCH, qid⟩
    ∧ cbLookup (dropHandle m qid).1 qid = none
    ∧ ∀ d ∈ (dispatchAll (dropHandle m qid).1 rs).2, d.1 ≠ qid := by
  refine ⟨rfl, cbLookup_remove_self m qid, ?_⟩
  exact (dispatchAll_none qid rs (cbRemove m qid) (cbLookup_remove_self m qid)).1

/-- C10: dispatching an inbound response whose `query_id` has no entry in
the callback map is a no-op (nothing delivered, map unchanged); and a
non-persistent (`get`) entry delivers at most one result set over any
sequence of inbound responses, because the first dispatch under its
`query_id` removes the entry. -/
theorem dispatch_unknown_noop_and_get_once (m : CBMap) (ok : Bool)
    (r : Response) (qid : String) (ib : Nat) (rs : List (Bool × Response))
    (h : cbLookup m qid = some ⟨false, ib⟩) :
    (cbLookup m r.query_id = none → dispatch m ok r = (m, none))
    ∧ List.countP (fun d => d.1 == qid) (dispatchAll m rs).2 ≤ 1 := by
  constructor
  · intro hn
    unfold dispatch
    rw [hn]
  · exact dispatchAll_get_once qid ib rs m h

/-- C10, witness: a `get` entry under `"g"` delivers at most once across
two responses carrying `"g"`, and a response under unknown `"x"` is a
no-op. -/
theorem dispatch_unknown_noop_and_get_once_witness :
    cbLookup [("g", CBEntry.mk false 5)] "g" = some ⟨false, 5⟩
    ∧ ((cbLookup [("g", CBEntry.mk false 5)] "x" = none →
          dispatch [("g", CBEntry.mk false 5)] true ⟨"x", []⟩
            = ([("g", CBEntry.mk false 5)], none))
      ∧ List.countP (fun d => d.1 == "g")
          (dispatchAll [("g", CBEntry.mk false 5)]
            [(true, ⟨"g", []⟩), (true, ⟨"g", []⟩)]).2 ≤ 1) :=
  ⟨rfl,
    dispatch_unknown_noop_and_get_once [("g", CBEntry.mk false 5)] true
      ⟨"x", []⟩ "g" 5 [(true, ⟨"g", []⟩), (true, ⟨"g", []⟩)] rfl⟩

end LiveBucket
